import Mathlib

/-!
Verification of the process-graph builder of the openeo python client.

The repository ships only the test suites of the graph-construction core
(band math, process builder, node-id allocation); the implementation modules
themselves (openeo/internal/graphbuilder, openeo/internal/processes/builder,
openeo/rest/datacube) are not part of the source tree.  Following the
specification (spec.md sections 3, 4 and 8), the definitions below model that
missing core: node identifiers, the node-identity allocator, graph nodes and
flat graphs, the process-builder operator table, the callback parameter
binder, and the band-math facade.  Every definition whose doc comment starts
with "Modelled from the spec" is such a model.
-/

/-! ## Definitions

### Decimal rendering of counters

Node ids are formed by appending the decimal rendering of a per-process
counter to the process id.  `natDigits` is an executable decimal printer
(fuel-based so that it reduces by `rfl`/`decide`). -/

/-- Decimal digits of `n`, most significant first, with explicit fuel. -/
def natDigitsAux : Nat → Nat → List Char
  | 0, _ => []
  | fuel + 1, n => if n < 10 then [Nat.digitChar n] else natDigitsAux fuel (n / 10) ++ [Nat.digitChar (n % 10)]

/-- Decimal digits of `n`, most significant first. -/
def natDigits (n : Nat) : List Char := natDigitsAux (n + 1) n

/-- Decimal rendering of `n` as a string (models Python `str(n)`). -/
def natToStr (n : Nat) : String := String.mk (natDigits n)

/-- Accumulator step when reading a digit string back as a number. -/
def digitStep (acc : Nat) (c : Char) : Nat := acc * 10 + (c.toNat - 48)

/-- Numeric value of a digit string (decimal). -/
def digitsVal (l : List Char) : Nat := l.foldl digitStep 0

/-- `true` when the list is empty or does not end in a decimal digit. -/
def lastNonDigitB (l : List Char) : Bool :=
  match l.getLast? with
  | none => true
  | some c => !c.isDigit

/-! ### Node Identity Allocator (spec 4.1) -/

/-- Modelled from the spec: the per-session counter state of the Node Identity
Allocator (spec 4.1), a mapping from process-id stem to the last used counter
(missing module: the graph-builder internals).  Association list, first match
wins. -/
abbrev Counters := List (String × Nat)

/-- Look up the last used counter for a stem; 0 when never used. -/
def getCount (cs : Counters) (st : String) : Nat :=
  match cs with
  | [] => 0
  | (k, v) :: rest => if k = st then v else getCount rest st

/-- Update the counter for a stem. -/
def setCount (cs : Counters) (st : String) (n : Nat) : Counters :=
  match cs with
  | [] => [(st, n)]
  | (k, v) :: rest => if k = st then (st, n) :: rest else (k, v) :: setCount rest st n

/-- Modelled from the spec: the id stem of a process id.  Node ids in the
flat-graph examples of spec section 8 (and in the repository test data) drop
the underscores of the process id (`array_element` yields ids
`arrayelement1`, ...), so the stem is the process id with `_` removed. -/
def stem (pid : String) : String := String.mk (pid.data.filter (fun c => !(c == '_')))

/-- Modelled from the spec: `next_id(process_id)` of the Node Identity
Allocator (spec 4.1): the counter of the process id's stem is incremented
before each allocation (so counters start at 1) and the returned id is the
stem followed by the counter. -/
def next_id (cs : Counters) (pid : String) : String × Counters :=
  let st := stem pid
  let c := getCount cs st + 1
  (st ++ natToStr c, setCount cs st c)

/-- Modelled from the spec: the explicit reset operation of the allocator
(spec 4.1), starting a fresh session whose counters begin again at 0. -/
def reset (_ : Counters) : Counters := []

/-- A stem is good when it does not end in a decimal digit (true of every
process id the modelled core allocates: `add`, `arrayelement`, ...). -/
def GoodStem (s : String) : Prop := lastNonDigitB s.data = true

instance (s : String) : Decidable (GoodStem s) :=
  inferInstanceAs (Decidable (lastNonDigitB s.data = true))

/-- All the listed ids were allocated in some state below the counters `cs`. -/
def WFids (cs : Counters) (ids : List String) : Prop :=
  ∀ id ∈ ids, ∃ st c, GoodStem st ∧ 1 ≤ c ∧ c ≤ getCount cs st ∧ id = st ++ natToStr c

/-- Counters only grow during a session. -/
def csLe (cs cs' : Counters) : Prop := ∀ st, getCount cs st ≤ getCount cs' st

/-- Allocate one id per process id of the list, threading the counter state. -/
def allocSeq : List String → Counters → List String
  | [], _ => []
  | p :: ps, cs =>
    let r := next_id cs p
    r.1 :: allocSeq ps r.2

/-- The id the specification prescribes for allocating `p` after the
allocation history `hist`: `p` followed by one plus the number of earlier
allocations for `p` (counter per process id, starting at 1). -/
def specIdAt (hist : List String) (p : String) : String := p ++ natToStr (hist.count p + 1)

/-- The ids the specification prescribes for a sequence of allocations
performed after the history `hist`. -/
def specIdsAux (hist : List String) : List String → List String
  | [] => []
  | p :: ps => specIdAt hist p :: specIdsAux (hist ++ [p]) ps

/-- The ids the allocator actually produces for a sequence of allocations
performed after the history `hist` of already-allocated stems: each id is the
process id's stem followed by one plus the number of earlier allocations of
that stem (counter per stem, starting at 1). -/
def specIdsStemAux (hist : List String) : List String → List String
  | [] => []
  | p :: ps =>
    (stem p ++ natToStr (hist.count (stem p) + 1)) :: specIdsStemAux (hist ++ [stem p]) ps

/-- A plain process id: no underscore and not ending in a digit. -/
def goodPidB (p : String) : Bool := lastNonDigitB p.data && !(p.data.contains '_')

/-- Propositional form of `goodPidB`. -/
def GoodPid (p : String) : Prop := goodPidB p = true

instance (p : String) : Decidable (GoodPid p) :=
  inferInstanceAs (Decidable (goodPidB p = true))

/-! ### Graph nodes and flat graphs (spec 3) -/

mutual
/-- Modelled from the spec: ArgumentValue (spec section 3): a literal
(number, string, boolean, null), a NodeReference `from_node`, a
ParameterReference `from_argument`, or a Callback wrapping a complete flat
graph (the serialized `process_graph` object). -/
inductive ArgValue : Type where
  | int (n : Int)
  | str (s : String)
  | boolVal (b : Bool)
  | null
  | fromNode (id : String)
  | fromArgument (name : String)
  | callback (g : List (String × PGNode))
/-- Modelled from the spec: GraphNode (spec section 3): process id, optional
namespace, named arguments and the result flag; `result = false` models the
absent `result` key of the serialized node. -/
inductive PGNode : Type where
  | mk (process_id : String) (ns : Option String) (arguments : List (String × ArgValue)) (result : Bool)
end

/-- The process id of a node. -/
def PGNode.processId : PGNode → String
  | PGNode.mk p _ _ _ => p

/-- The namespace of a node. -/
def PGNode.nspace : PGNode → Option String
  | PGNode.mk _ ns _ _ => ns

/-- The named arguments of a node. -/
def PGNode.args : PGNode → List (String × ArgValue)
  | PGNode.mk _ _ a _ => a

/-- The result flag of a node. -/
def PGNode.resultFlag : PGNode → Bool
  | PGNode.mk _ _ _ r => r

/-- Replace the result flag of a node. -/
def PGNode.withResult : PGNode → Bool → PGNode
  | PGNode.mk p ns a _, r => PGNode.mk p ns a r

/-- A flat graph: mapping from node id to node (association list). -/
abbrev FlatGraph := List (String × PGNode)

/-- The node ids of a flat graph. -/
def keysG (g : FlatGraph) : List String := g.map (fun e => e.1)

/-- Set the result flag exactly on the node with id `tid` (spec 4.3: the flat
graph carries the tip node's result flag and no other). -/
def setResultG (tid : String) (g : FlatGraph) : FlatGraph :=
  g.map (fun e => (e.1, e.2.withResult (e.1 == tid)))

/-- Number of nodes of the graph carrying `result = true`. -/
def countResultsG (g : FlatGraph) : Nat := (g.filter (fun e => e.2.resultFlag)).length

/-- The `from_node` references of one argument value.  References inside a
callback belong to the callback's own graph scope and are not references of
the enclosing graph. -/
def refsOfArg : ArgValue → List String
  | ArgValue.fromNode id => [id]
  | _ => []

/-- The `from_node` references of an argument list. -/
def refsOfArgs : List (String × ArgValue) → List String
  | [] => []
  | kv :: rest => refsOfArg kv.2 ++ refsOfArgs rest

/-- The `from_node` references of a node. -/
def refsOfNode (n : PGNode) : List String := refsOfArgs n.args

/-- The `from_argument` parameter references of one argument value. -/
def paramRefsOfArg : ArgValue → List String
  | ArgValue.fromArgument name => [name]
  | _ => []

/-- The `from_argument` parameter references of an argument list. -/
def paramRefsOfArgs : List (String × ArgValue) → List String
  | [] => []
  | kv :: rest => paramRefsOfArg kv.2 ++ paramRefsOfArgs rest

/-- The `from_argument` parameter references of a node. -/
def paramRefsOfNode (n : PGNode) : List String := paramRefsOfArgs n.args

/-- Closed-graph invariant (spec 3): every NodeReference inside any node's
arguments resolves to a key present in the same flat graph. -/
def ClosedG (g : FlatGraph) : Prop :=
  ∀ e ∈ g, ∀ r ∈ refsOfNode e.2, r ∈ keysG g

/-! ### Process builder (spec 3, 4.2, 4.3, 4.4) -/

/-- Modelled from the spec: ProcessBuilder (spec 3): wraps the argument value
representing the value so far (a NodeReference after any operation) together
with its accumulated flat graph of result-flag-free nodes. -/
structure PB : Type where
  value : ArgValue
  nodes : FlatGraph

/-- Modelled from the spec: node construction plus wrapping (spec 4.2, 4.3):
allocate a fresh id for the process id, append the new result-flag-free node
to the accumulated graph `base`, and return a builder whose value references
the new node. -/
def emitNode (pid : String) (args : List (String × ArgValue)) (base : FlatGraph) (cs : Counters) :
    PB × Counters :=
  let r := next_id cs pid
  (PB.mk (ArgValue.fromNode r.1) (base ++ [(r.1, PGNode.mk pid none args false)]), r.2)

/-- Modelled from the spec: `flat_graph` finalization (spec 4.3): all
accumulated nodes with exactly the tip node's result flag set true; fails
(`none`) when no tip is set or the builder owns zero nodes. -/
def PB.flat_graph (p : PB) : Option FlatGraph :=
  match p.value with
  | ArgValue.fromNode tid => if p.nodes.isEmpty then none else some (setResultG tid p.nodes)
  | _ => none

/-- Modelled from the spec: merge semantics (spec 4.3): union of both graphs'
node mappings without duplicating nodes already present in the left graph.
(The id-collision error of spec 4.3 cannot fire for allocator-generated ids
and is not modelled.) -/
def mergeNodes (l₁ l₂ : FlatGraph) : FlatGraph :=
  l₁ ++ l₂.filter (fun e => !(keysG l₁).contains e.1)

/-- Modelled from the spec: a binary operator whose right operand is a plain
scalar (spec 4.4 operator table): one new node of the given process with
`x = self`, `y = other`. -/
def PB.binScalarR (p : PB) (pid : String) (s : Int) (cs : Counters) : PB × Counters :=
  emitNode pid [("x", p.value), ("y", ArgValue.int s)] p.nodes cs

/-- Modelled from the spec: a reflected binary operator, the scalar on the
left (spec 4.4 operator table): one new node of the given process with
`x = other`, `y = self`. -/
def PB.binScalarL (s : Int) (p : PB) (pid : String) (cs : Counters) : PB × Counters :=
  emitNode pid [("x", ArgValue.int s), ("y", p.value)] p.nodes cs

/-- Modelled from the spec: a binary operator applied to two builders
(spec 4.4): `x` is the left operand's reference and `y` the right operand's,
after merging the two accumulated graphs (spec 4.3). -/
def PB.binBuilder (p q : PB) (pid : String) (cs : Counters) : PB × Counters :=
  emitNode pid [("x", p.value), ("y", q.value)] (mergeNodes p.nodes q.nodes) cs

/-- Modelled from the spec: `self + other`, scalar on the right (`add`). -/
def PB.add (p : PB) (s : Int) (cs : Counters) : PB × Counters := p.binScalarR "add" s cs

/-- Modelled from the spec: `other + self`, scalar on the left (`add`). -/
def PB.radd (s : Int) (p : PB) (cs : Counters) : PB × Counters := PB.binScalarL s p "add" cs

/-- Modelled from the spec: `self - other`, scalar on the right (`subtract`). -/
def PB.sub (p : PB) (s : Int) (cs : Counters) : PB × Counters := p.binScalarR "subtract" s cs

/-- Modelled from the spec: `other - self`, scalar on the left (`subtract`). -/
def PB.rsub (s : Int) (p : PB) (cs : Counters) : PB × Counters := PB.binScalarL s p "subtract" cs

/-- Modelled from the spec: `self * other`, scalar on the right (`multiply`). -/
def PB.mul (p : PB) (s : Int) (cs : Counters) : PB × Counters := p.binScalarR "multiply" s cs

/-- Modelled from the spec: `other * self`, scalar on the left (`multiply`). -/
def PB.rmul (s : Int) (p : PB) (cs : Counters) : PB × Counters := PB.binScalarL s p "multiply" cs

/-- Modelled from the spec: `self / other`, scalar on the right (`divide`). -/
def PB.div (p : PB) (s : Int) (cs : Counters) : PB × Counters := p.binScalarR "divide" s cs

/-- Modelled from the spec: `other / self`, scalar on the left (`divide`). -/
def PB.rdiv (s : Int) (p : PB) (cs : Counters) : PB × Counters := PB.binScalarL s p "divide" cs

/-- Modelled from the spec: `self == other` against a scalar (`eq`). -/
def PB.eqOp (p : PB) (s : Int) (cs : Counters) : PB × Counters := p.binScalarR "eq" s cs

/-- Modelled from the spec: `self > other` against a scalar (`gt`). -/
def PB.gtOp (p : PB) (s : Int) (cs : Counters) : PB × Counters := p.binScalarR "gt" s cs

/-- Modelled from the spec: unary `~self` (`not`), with `x = self` as the
only argument. -/
def PB.notOp (p : PB) (cs : Counters) : PB × Counters :=
  emitNode "not" [("x", p.value)] p.nodes cs

/-! ### Band-math expressions and their compilation (spec 4.4, 4.6) -/

/-- Modelled from the spec: the band-math expressions reachable through the
operator overloads of spec 4.4 inside one reduce callback: a band access and
the scalar/builder operator applications of the table. -/
inductive RExpr : Type where
  | bandIdx (i : Int)
  | addS (e : RExpr) (s : Int)
  | sAdd (s : Int) (e : RExpr)
  | subS (e : RExpr) (s : Int)
  | sSub (s : Int) (e : RExpr)
  | mulS (e : RExpr) (s : Int)
  | sMul (s : Int) (e : RExpr)
  | divS (e : RExpr) (s : Int)
  | sDiv (s : Int) (e : RExpr)
  | eqS (e : RExpr) (s : Int)
  | gtS (e : RExpr) (s : Int)
  | notE (e : RExpr)
  | addB (a b : RExpr)

/-- Modelled from the spec: the expression-to-graph compiler (spec 4.4, 4.6):
a band access emits an `array_element` node whose `data` argument is the
bound callback parameter reference `from_argument data` and whose `index` is
the band index; every operator application emits exactly one new binary (or
unary) node through the operator table. -/
def compile : RExpr → Counters → PB × Counters
  | RExpr.bandIdx i, cs =>
      emitNode "array_element" [("data", ArgValue.fromArgument "data"), ("index", ArgValue.int i)] [] cs
  | RExpr.addS e s, cs => let r := compile e cs; r.1.add s r.2
  | RExpr.sAdd s e, cs => let r := compile e cs; PB.radd s r.1 r.2
  | RExpr.subS e s, cs => let r := compile e cs; r.1.sub s r.2
  | RExpr.sSub s e, cs => let r := compile e cs; PB.rsub s r.1 r.2
  | RExpr.mulS e s, cs => let r := compile e cs; r.1.mul s r.2
  | RExpr.sMul s e, cs => let r := compile e cs; PB.rmul s r.1 r.2
  | RExpr.divS e s, cs => let r := compile e cs; r.1.div s r.2
  | RExpr.sDiv s e, cs => let r := compile e cs; PB.rdiv s r.1 r.2
  | RExpr.eqS e s, cs => let r := compile e cs; r.1.eqOp s r.2
  | RExpr.gtS e s, cs => let r := compile e cs; r.1.gtOp s r.2
  | RExpr.notE e, cs => let r := compile e cs; r.1.notOp r.2
  | RExpr.addB a b, cs =>
      let r := compile a cs
      let r' := compile b r.2
      PB.binBuilder r.1 r'.1 "add" r'.2

/-- The arguments of a `load_collection` node (as the repository tests show
them: the collection id plus null spatial and temporal extents). -/
def loadCollectionArgs (collection : String) : List (String × ArgValue) :=
  [("id", ArgValue.str collection), ("spatial_extent", ArgValue.null), ("temporal_extent", ArgValue.null)]

/-- Modelled from the spec: the new-schema band-math facade (spec 4.6): a
`load_collection` node, the compiled callback, and a `reduce_dimension`
wrapper node whose `reducer` argument is the callback's finalized flat graph
wrapped as a process-graph callback, with the dimension fixed to the bands
dimension; the whole session starts from fresh allocator counters. -/
def bandMathGraph (collection : String) (e : RExpr) : Option FlatGraph :=
  let l := next_id [] "load_collection"
  let lc : String × PGNode := (l.1, PGNode.mk "load_collection" none (loadCollectionArgs collection) false)
  let r := compile e l.2
  match r.1.flat_graph with
  | none => none
  | some cb =>
    let rd := next_id r.2 "reduce_dimension"
    some (setResultG rd.1 [lc, (rd.1, PGNode.mk "reduce_dimension" none
      [("data", ArgValue.fromNode l.1), ("reducer", ArgValue.callback cb),
       ("dimension", ArgValue.str "spectral_bands")] false)])

/-- Modelled from the spec: the domain-specific error of spec 4.6 / 7 raised
when bands of two different source collections are combined. -/
inductive BandMathException : Type where
  | differentCollections

/-- Modelled from the spec: a band handle of the band-math facade: the
declared source collection it originates from together with its process
builder. -/
structure Band : Type where
  collection : String
  pb : PB

/-- Modelled from the spec: combining two bands with an arithmetic operator
(spec 4.6): when the bands originate from different declared source
collections the facade rejects with the domain error and builds nothing;
otherwise the operator table applies to the two builders. -/
def Band.combine (pid : String) (b₁ b₂ : Band) (cs : Counters) :
    Except BandMathException (Band × Counters) :=
  if b₁.collection = b₂.collection
  then
    let r := PB.binBuilder b₁.pb b₂.pb pid cs
    Except.ok (Band.mk b₁.collection r.1, r.2)
  else Except.error BandMathException.differentCollections

/-- Modelled from the spec: `GraphBuilder.from_process(process_id, namespace,
arguments)` (spec 4.3) alias `ProcessBuilderBase.process`: creates one node
and wraps it as the sole content and tip of a fresh builder. -/
def from_process (pid : String) (ns : Option String) (args : List (String × ArgValue)) (cs : Counters) :
    PB × Counters :=
  let r := next_id cs pid
  (PB.mk (ArgValue.fromNode r.1) [(r.1, PGNode.mk pid ns args false)], r.2)

/-! ### Callback parameter binder (spec 4.5) -/

/-- The kind of a declared parameter of a host callable. -/
inductive ParamKind : Type where
  | positionalOrKeyword
  | varPositional
  | varKeyword

/-- A declared parameter of a host callable: name and kind. -/
structure FnParam : Type where
  name : String
  kind : ParamKind

/-- `true` exactly for a plain positional-or-keyword parameter. -/
def FnParam.isNamed (p : FnParam) : Bool :=
  match p.kind with
  | ParamKind.positionalOrKeyword => true
  | _ => false

/-- Modelled from the spec: `get_parameter_names(callable)` (spec 4.5):
the declared positional-or-keyword parameter names in declaration order,
excluding the variadic positional and variadic keyword catch-alls. -/
def get_parameter_names : List FnParam → List String
  | [] => []
  | p :: ps =>
    match p.kind with
    | ParamKind.positionalOrKeyword => p.name :: get_parameter_names ps
    | _ => get_parameter_names ps

/-- The declared parameters of the test callable
`def add_stuff(foo, bar, *args, **kwargs)` (declaration order). -/
def add_stuff_params : List FnParam :=
  [FnParam.mk "foo" ParamKind.positionalOrKeyword,
   FnParam.mk "bar" ParamKind.positionalOrKeyword,
   FnParam.mk "args" ParamKind.varPositional,
   FnParam.mk "kwargs" ParamKind.varKeyword]

/-- The invariants a process builder maintains relative to the allocator
state: well-formed allocator-generated keys, no duplicate ids, a tip
reference into its own graph, the closed-graph invariant, no result flag
before finalization, and only the bound parameter `data` as parameter
reference. -/
structure PBInv (cs : Counters) (p : PB) : Prop where
  wf : WFids cs (keysG p.nodes)
  nd : (keysG p.nodes).Nodup
  tip : ∃ t, p.value = ArgValue.fromNode t ∧ t ∈ keysG p.nodes
  closed : ∀ e ∈ p.nodes, ∀ r ∈ refsOfNode e.2, r ∈ keysG p.nodes
  nores : ∀ e ∈ p.nodes, e.2.resultFlag = false
  params : ∀ e ∈ p.nodes, ∀ r ∈ paramRefsOfNode e.2, r = "data"

/-! ## Theorems

### The decimal printer -/

theorem digitChar_isDigit (k : Nat) (h : k < 10) : (Nat.digitChar k).isDigit = true := by
  interval_cases k <;> decide

theorem natDigitsAux_digits (fuel n : Nat) (h : n < fuel) :
    ∀ c ∈ natDigitsAux fuel n, c.isDigit = true := by
  induction fuel generalizing n with
  | zero => omega
  | succ f ih =>
    intro c hc
    simp only [natDigitsAux] at hc
    by_cases h10 : n < 10
    · simp [h10] at hc
      subst hc
      exact digitChar_isDigit n h10
    · simp only [h10, if_false, List.mem_append, List.mem_singleton] at hc
      rcases hc with hc | hc
      · have hd : n / 10 < n := Nat.div_lt_self (by omega) (by omega)
        exact ih (n / 10) (by omega) c hc
      · subst hc
        exact digitChar_isDigit (n % 10) (Nat.mod_lt n (by omega))

theorem natDigits_digits (n : Nat) : ∀ c ∈ natDigits n, c.isDigit = true :=
  natDigitsAux_digits (n + 1) n (Nat.lt_succ_self n)

theorem digitChar_toNat (k : Nat) (h : k < 10) : (Nat.digitChar k).toNat - 48 = k := by
  interval_cases k <;> decide

theorem natDigitsAux_val (fuel n : Nat) (h : n < fuel) :
    ∃ P, 0 < P ∧ ∀ acc, List.foldl digitStep acc (natDigitsAux fuel n) = acc * P + n := by
  induction fuel generalizing n with
  | zero => omega
  | succ f ih =>
    by_cases h10 : n < 10
    · refine ⟨10, by omega, fun acc => ?_⟩
      simp only [natDigitsAux, h10, if_true, List.foldl_cons, List.foldl_nil, digitStep]
      rw [digitChar_toNat n h10]
    · have hd : n / 10 < n := Nat.div_lt_self (by omega) (by omega)
      obtain ⟨P, hP, hfold⟩ := ih (n / 10) (by omega)
      refine ⟨P * 10, by positivity, fun acc => ?_⟩
      simp only [natDigitsAux, h10, if_false, List.foldl_append, List.foldl_cons, List.foldl_nil]
      rw [hfold acc]
      simp only [digitStep]
      rw [digitChar_toNat (n % 10) (Nat.mod_lt n (by omega))]
      have : 10 * (n / 10) + n % 10 = n := Nat.div_add_mod n 10
      ring_nf
      omega

theorem digitsVal_natDigits (n : Nat) : digitsVal (natDigits n) = n := by
  obtain ⟨P, hP, hfold⟩ := natDigitsAux_val (n + 1) n (Nat.lt_succ_self n)
  simpa [digitsVal, natDigits] using hfold 0

theorem natDigits_inj (m n : Nat) (h : natDigits m = natDigits n) : m = n := by
  have := digitsVal_natDigits m
  rw [h, digitsVal_natDigits] at this
  omega

theorem takeWhile_all_append (p : Char → Bool) (xs ys : List Char)
    (hxs : ∀ c ∈ xs, p c = true) (hys : ∀ c, ys.head? = some c → p c = false) :
    (xs ++ ys).takeWhile p = xs := by
  induction xs with
  | nil =>
    simp only [List.nil_append]
    cases ys with
    | nil => rfl
    | cons c cs =>
      have := hys c rfl
      simp [List.takeWhile, this]
  | cons x xs ih =>
    have hx := hxs x (by simp)
    simp only [List.cons_append, List.takeWhile, hx]
    exact congrArg (List.cons x) (ih (fun c hc => hxs c (by simp [hc])))

theorem append_digits_inj (l₁ l₂ d₁ d₂ : List Char)
    (hd₁ : ∀ c ∈ d₁, c.isDigit = true) (hd₂ : ∀ c ∈ d₂, c.isDigit = true)
    (hl₁ : lastNonDigitB l₁ = true) (hl₂ : lastNonDigitB l₂ = true)
    (h : l₁ ++ d₁ = l₂ ++ d₂) : l₁ = l₂ ∧ d₁ = d₂ := by
  have hrev : d₁.reverse ++ l₁.reverse = d₂.reverse ++ l₂.reverse := by
    have := congrArg List.reverse h
    simpa using this
  have hhead : ∀ (l : List Char), lastNonDigitB l = true →
      ∀ c, l.reverse.head? = some c → c.isDigit = false := by
    intro l hl c hc
    rw [List.head?_reverse] at hc
    unfold lastNonDigitB at hl
    rw [hc] at hl
    simpa using hl
  have h₁ : (d₁.reverse ++ l₁.reverse).takeWhile Char.isDigit = d₁.reverse :=
    takeWhile_all_append _ _ _ (by simpa using hd₁) (hhead l₁ hl₁)
  have h₂ : (d₂.reverse ++ l₂.reverse).takeWhile Char.isDigit = d₂.reverse :=
    takeWhile_all_append _ _ _ (by simpa using hd₂) (hhead l₂ hl₂)
  have hd : d₁.reverse = d₂.reverse := by rw [← h₁, ← h₂, hrev]
  have hdeq : d₁ = d₂ := by
    have := congrArg List.reverse hd
    simpa using this
  subst hdeq
  refine ⟨?_, rfl⟩
  have hlen : l₁.length = l₂.length := by
    have := congrArg List.length h
    simp at this
    omega
  exact (List.append_inj h hlen).1

/-! ### The allocator -/

theorem getCount_setCount (cs : Counters) (st st' : String) (n : Nat) :
    getCount (setCount cs st n) st' = if st = st' then n else getCount cs st' := by
  induction cs with
  | nil =>
    by_cases h : st = st'
    · simp [setCount, getCount, h]
    · simp [setCount, getCount, h]
  | cons kv rest ih =>
    obtain ⟨k, v⟩ := kv
    by_cases hk : k = st
    · subst hk
      by_cases h : k = st'
      · simp [setCount, getCount, h]
      · simp [setCount, getCount, h]
    · by_cases h : k = st'
      · subst h
        have hst : ¬ st = k := fun hh => hk hh.symm
        simp [setCount, getCount, hk, hst, ih]
      · simp [setCount, getCount, hk, h, ih]

theorem string_data_append (s t : String) : (s ++ t).data = s.data ++ t.data := by
  cases s; cases t; rfl

theorem id_inj (s₁ s₂ : String) (c₁ c₂ : Nat) (h₁ : GoodStem s₁) (h₂ : GoodStem s₂)
    (h : s₁ ++ natToStr c₁ = s₂ ++ natToStr c₂) : s₁ = s₂ ∧ c₁ = c₂ := by
  have hdata : s₁.data ++ natDigits c₁ = s₂.data ++ natDigits c₂ := by
    have := congrArg String.data h
    rwa [string_data_append, string_data_append] at this
  have := append_digits_inj s₁.data s₂.data (natDigits c₁) (natDigits c₂)
    (natDigits_digits c₁) (natDigits_digits c₂) h₁ h₂ hdata
  refine ⟨?_, natDigits_inj _ _ this.2⟩
  cases s₁; cases s₂
  exact congrArg String.mk this.1

theorem csLe_refl (cs : Counters) : csLe cs cs := fun _ => Nat.le_refl _

theorem csLe_trans (a b c : Counters) (h₁ : csLe a b) (h₂ : csLe b c) : csLe a c :=
  fun st => Nat.le_trans (h₁ st) (h₂ st)

theorem csLe_next_id (cs : Counters) (pid : String) : csLe cs (next_id cs pid).2 := by
  intro st
  simp only [next_id, getCount_setCount]
  by_cases h : stem pid = st
  · subst h
    simp
  · simp [h]

theorem WFids_mono (cs cs' : Counters) (ids : List String) (hle : csLe cs cs')
    (h : WFids cs ids) : WFids cs' ids := by
  intro id hid
  obtain ⟨st, c, hg, h1, h2, he⟩ := h id hid
  exact ⟨st, c, hg, h1, Nat.le_trans h2 (hle st), he⟩

theorem WFids_append (cs : Counters) (ids₁ ids₂ : List String)
    (h₁ : WFids cs ids₁) (h₂ : WFids cs ids₂) : WFids cs (ids₁ ++ ids₂) := by
  intro id hid
  rcases List.mem_append.1 hid with h | h
  · exact h₁ id h
  · exact h₂ id h

theorem WFids_sub (cs : Counters) (ids ids' : List String)
    (hsub : ∀ id ∈ ids', id ∈ ids) (h : WFids cs ids) : WFids cs ids' :=
  fun id hid => h id (hsub id hid)

theorem fresh_id (cs : Counters) (ids : List String) (st : String)
    (hwf : WFids cs ids) (hg : GoodStem st) :
    st ++ natToStr (getCount cs st + 1) ∉ ids := by
  intro hmem
  obtain ⟨st', c', hg', h1, h2, he⟩ := hwf _ hmem
  obtain ⟨hst, hc⟩ := id_inj st' st c' (getCount cs st + 1) hg' hg he.symm
  subst hst
  omega

theorem WFids_next (cs : Counters) (pid : String) (hg : GoodStem (stem pid)) :
    WFids (next_id cs pid).2 [(next_id cs pid).1] := by
  intro id hid
  simp only [next_id, List.mem_singleton] at hid
  subst hid
  refine ⟨stem pid, getCount cs (stem pid) + 1, hg, by omega, ?_, rfl⟩
  simp [next_id, getCount_setCount]

/-! ### Allocation sequences (spec 4.1, spec 8) -/

theorem stem_eq_self (p : String) (h : p.data.contains '_' = false) : stem p = p := by
  unfold stem
  have hfilter : p.data.filter (fun c => !(c == '_')) = p.data := by
    apply List.filter_eq_self.2
    intro c hc
    have hne : (c == '_') = false := by
      cases hbe : c == '_'
      · rfl
      · exfalso
        have hcu : c = '_' := eq_of_beq hbe
        subst hcu
        have hmem : p.data.contains '_' = true := List.elem_eq_true_of_mem hc
        rw [hmem] at h
        cases h
    simp [hne]
  rw [hfilter]

theorem GoodPid.lastNonDigit (p : String) (h : GoodPid p) : lastNonDigitB p.data = true := by
  unfold GoodPid goodPidB at h
  rw [Bool.and_eq_true] at h
  exact h.1

theorem GoodPid.noUnderscore (p : String) (h : GoodPid p) : p.data.contains '_' = false := by
  unfold GoodPid goodPidB at h
  rw [Bool.and_eq_true] at h
  simpa using h.2

theorem GoodPid.stem_eq (p : String) (h : GoodPid p) : stem p = p :=
  stem_eq_self p (GoodPid.noUnderscore p h)

theorem GoodPid.goodStem (p : String) (h : GoodPid p) : GoodStem (stem p) := by
  rw [GoodPid.stem_eq p h]
  exact GoodPid.lastNonDigit p h

theorem allocSeq_eq_specIdsAux (ps : List String) (cs : Counters) (hist : List String)
    (hgood : ∀ p ∈ ps, GoodPid p)
    (hcs : ∀ st, getCount cs st = hist.count st) :
    allocSeq ps cs = specIdsAux hist ps := by
  induction ps generalizing cs hist with
  | nil => rfl
  | cons p ps ih =>
    have hp : GoodPid p := hgood p (by simp)
    have hstem : stem p = p := GoodPid.stem_eq p hp
    simp only [allocSeq, specIdsAux, specIdAt, next_id, hstem, hcs p]
    refine congrArg₂ List.cons rfl ?_
    refine ih _ _ (fun q hq => hgood q (List.mem_cons_of_mem p hq)) ?_
    intro st
    rw [getCount_setCount]
    by_cases hst : p = st
    · subst hst
      simp [List.count_append]
    · rw [if_neg hst, hcs st, List.count_append]
      have hone : [p].count st = 0 := by
        have hbe : (st == p) = false := by
          cases hb : st == p
          · rfl
          · exact absurd (eq_of_beq hb).symm hst
        simp [List.count_cons, hbe]
        exact hst
      omega

theorem allocSeq_nodup_aux (ps : List String) (cs : Counters) (done : List String)
    (hgood : ∀ p ∈ ps, GoodStem (stem p)) (hwf : WFids cs done) (hnd : done.Nodup) :
    (done ++ allocSeq ps cs).Nodup := by
  induction ps generalizing cs done with
  | nil => simpa [allocSeq] using hnd
  | cons p ps ih =>
    have hgs : GoodStem (stem p) := hgood p (by simp)
    have hfresh : (next_id cs p).1 ∉ done := by
      simpa [next_id] using fresh_id cs done (stem p) hwf hgs
    have hwf' : WFids (next_id cs p).2 (done ++ [(next_id cs p).1]) := by
      apply WFids_append
      · exact WFids_mono cs _ done (csLe_next_id cs p) hwf
      · exact WFids_next cs p hgs
    have hnd' : (done ++ [(next_id cs p).1]).Nodup := by
      rw [List.nodup_append]
      refine ⟨hnd, List.nodup_singleton _, ?_⟩
      intro a ha
      simp only [List.mem_singleton]
      intro heq
      subst heq
      exact hfresh ha
    have hrec := ih (next_id cs p).2 (done ++ [(next_id cs p).1])
      (fun q hq => hgood q (List.mem_cons_of_mem p hq)) hwf' hnd'
    show (done ++ ((next_id cs p).1 :: allocSeq ps (next_id cs p).2)).Nodup
    rw [List.append_cons]
    exact hrec

/-! ### Flat-graph helper lemmas -/

@[simp] theorem PGNode.resultFlag_mk (p : String) (ns : Option String)
    (a : List (String × ArgValue)) (r : Bool) : (PGNode.mk p ns a r).resultFlag = r := rfl

@[simp] theorem PGNode.args_mk (p : String) (ns : Option String)
    (a : List (String × ArgValue)) (r : Bool) : (PGNode.mk p ns a r).args = a := rfl

@[simp] theorem PGNode.withResult_mk (p : String) (ns : Option String)
    (a : List (String × ArgValue)) (r r' : Bool) :
    (PGNode.mk p ns a r).withResult r' = PGNode.mk p ns a r' := rfl

@[simp] theorem refsOfNode_mk (p : String) (ns : Option String)
    (a : List (String × ArgValue)) (r : Bool) :
    refsOfNode (PGNode.mk p ns a r) = refsOfArgs a := rfl

@[simp] theorem paramRefsOfNode_mk (p : String) (ns : Option String)
    (a : List (String × ArgValue)) (r : Bool) :
    paramRefsOfNode (PGNode.mk p ns a r) = paramRefsOfArgs a := rfl

@[simp] theorem keysG_append (l₁ l₂ : FlatGraph) : keysG (l₁ ++ l₂) = keysG l₁ ++ keysG l₂ := by
  simp [keysG]

@[simp] theorem keysG_cons (e : String × PGNode) (l : FlatGraph) :
    keysG (e :: l) = e.1 :: keysG l := rfl

@[simp] theorem keysG_nil : keysG [] = [] := rfl

theorem refsOfNode_withResult (n : PGNode) (b : Bool) :
    refsOfNode (n.withResult b) = refsOfNode n := by
  cases n
  rfl

theorem paramRefsOfNode_withResult (n : PGNode) (b : Bool) :
    paramRefsOfNode (n.withResult b) = paramRefsOfNode n := by
  cases n
  rfl

theorem PGNode.resultFlag_withResult (n : PGNode) (b : Bool) :
    (n.withResult b).resultFlag = b := by
  cases n
  rfl

theorem contains_eq_false_of_not_mem (l : List String) (a : String) (h : a ∉ l) :
    l.contains a = false := by
  cases hc : l.contains a
  · rfl
  · exact absurd (List.mem_of_elem_eq_true hc) h

theorem not_mem_of_contains_eq_false (l : List String) (a : String)
    (h : l.contains a = false) : a ∉ l := by
  intro hm
  have hc : l.contains a = true := List.elem_eq_true_of_mem hm
  rw [hc] at h
  cases h

@[simp] theorem setResultG_keys (tid : String) (g : FlatGraph) :
    keysG (setResultG tid g) = keysG g := by
  simp [keysG, setResultG]

theorem setResultG_mem (tid : String) (g : FlatGraph) (e : String × PGNode)
    (h : e ∈ setResultG tid g) :
    ∃ e' ∈ g, e = (e'.1, e'.2.withResult (e'.1 == tid)) := by
  unfold setResultG at h
  obtain ⟨e', he', heq⟩ := List.mem_map.1 h
  exact ⟨e', he', heq.symm⟩

theorem countResultsG_setResultG_zero (tid : String) (g : FlatGraph) (h : tid ∉ keysG g) :
    countResultsG (setResultG tid g) = 0 := by
  induction g with
  | nil => rfl
  | cons e g ih =>
    have hne : (e.1 == tid) = false := by
      cases hb : e.1 == tid
      · rfl
      · exact absurd (by simp [keysG, eq_of_beq hb]) h
    have htail : tid ∉ keysG g := fun hm => h (by simp [keysG] at hm ⊢; exact Or.inr hm)
    simp only [setResultG, List.map_cons, countResultsG, List.filter,
      PGNode.resultFlag_withResult, hne]
    exact ih htail

theorem countResultsG_setResultG (tid : String) (g : FlatGraph)
    (hnd : (keysG g).Nodup) (hmem : tid ∈ keysG g) :
    countResultsG (setResultG tid g) = 1 := by
  induction g with
  | nil => cases hmem
  | cons e g ih =>
    rw [keysG_cons, List.nodup_cons] at hnd
    by_cases he : e.1 = tid
    · have htail : tid ∉ keysG g := by
        rw [← he]
        exact hnd.1
      have hbe : (e.1 == tid) = true := by
        rw [he]
        simp
      simp only [setResultG, List.map_cons, countResultsG, List.filter,
        PGNode.resultFlag_withResult, hbe]
      have := countResultsG_setResultG_zero tid g htail
      simp only [countResultsG, setResultG] at this
      simp [this]
    · have hbe : (e.1 == tid) = false := by
        cases hb : e.1 == tid
        · rfl
        · exact absurd (eq_of_beq hb) he
      have hmem' : tid ∈ keysG g := by
        rcases List.mem_cons.1 hmem with hm | hm
        · exact absurd hm.symm he
        · exact hm
      simp only [setResultG, List.map_cons, countResultsG, List.filter,
        PGNode.resultFlag_withResult, hbe]
      have := ih hnd.2 hmem'
      simp only [countResultsG, setResultG] at this
      exact this

theorem ClosedG_setResultG (tid : String) (g : FlatGraph) (h : ClosedG g) :
    ClosedG (setResultG tid g) := by
  intro e he r hr
  obtain ⟨e', he', heq⟩ := setResultG_mem tid g e he
  subst heq
  rw [setResultG_keys]
  rw [refsOfNode_withResult] at hr
  exact h e' he' r hr

theorem params_setResultG (tid : String) (g : FlatGraph)
    (h : ∀ e ∈ g, ∀ r ∈ paramRefsOfNode e.2, r = "data") :
    ∀ e ∈ setResultG tid g, ∀ r ∈ paramRefsOfNode e.2, r = "data" := by
  intro e he r hr
  obtain ⟨e', he', heq⟩ := setResultG_mem tid g e he
  subst heq
  rw [paramRefsOfNode_withResult] at hr
  exact h e' he' r hr

/-! ### Merge and emission lemmas -/

theorem mergeNodes_mem (l₁ l₂ : FlatGraph) (e : String × PGNode) (h : e ∈ mergeNodes l₁ l₂) :
    e ∈ l₁ ∨ e ∈ l₂ := by
  unfold mergeNodes at h
  rcases List.mem_append.1 h with h | h
  · exact Or.inl h
  · exact Or.inr (List.mem_filter.1 h).1

theorem mergeNodes_keys_left (l₁ l₂ : FlatGraph) (k : String) (h : k ∈ keysG l₁) :
    k ∈ keysG (mergeNodes l₁ l₂) := by
  unfold mergeNodes
  rw [keysG_append, List.mem_append]
  exact Or.inl h

theorem mergeNodes_keys_right (l₁ l₂ : FlatGraph) (k : String) (h : k ∈ keysG l₂) :
    k ∈ keysG (mergeNodes l₁ l₂) := by
  by_cases hmem : k ∈ keysG l₁
  · exact mergeNodes_keys_left l₁ l₂ k hmem
  · obtain ⟨e, he, hk⟩ := List.mem_map.1 h
    unfold mergeNodes
    rw [keysG_append, List.mem_append]
    right
    apply List.mem_map.2
    refine ⟨e, List.mem_filter.2 ⟨he, ?_⟩, hk⟩
    rw [hk, contains_eq_false_of_not_mem _ k hmem]
    rfl

theorem mergeNodes_keys_cases (l₁ l₂ : FlatGraph) (k : String)
    (h : k ∈ keysG (mergeNodes l₁ l₂)) : k ∈ keysG l₁ ∨ k ∈ keysG l₂ := by
  obtain ⟨e, he, hk⟩ := List.mem_map.1 h
  rcases mergeNodes_mem l₁ l₂ e he with hm | hm
  · exact Or.inl (List.mem_map.2 ⟨e, hm, hk⟩)
  · exact Or.inr (List.mem_map.2 ⟨e, hm, hk⟩)

theorem mergeNodes_nodup (l₁ l₂ : FlatGraph)
    (h₁ : (keysG l₁).Nodup) (h₂ : (keysG l₂).Nodup) :
    (keysG (mergeNodes l₁ l₂)).Nodup := by
  unfold mergeNodes
  rw [keysG_append, List.nodup_append]
  refine ⟨h₁, ?_, ?_⟩
  · show (List.map (fun e => e.1) (l₂.filter (fun e => !(keysG l₁).contains e.1))).Nodup
    have h₂' : (List.map (fun e : String × PGNode => e.1) l₂).Nodup := h₂
    exact ((List.filter_sublist l₂).map (fun e => e.1)).nodup h₂'
  · intro a ha hmem
    obtain ⟨e, he, hk⟩ := List.mem_map.1 hmem
    have hpred := (List.mem_filter.1 he).2
    rw [hk] at hpred
    have : (keysG l₁).contains a = false := by
      cases hc : (keysG l₁).contains a
      · rfl
      · rw [hc] at hpred
        cases hpred
    exact not_mem_of_contains_eq_false _ a this ha

theorem PBInv_mono (cs cs' : Counters) (p : PB) (hle : csLe cs cs') (h : PBInv cs p) :
    PBInv cs' p :=
  ⟨WFids_mono cs cs' _ hle h.wf, h.nd, h.tip, h.closed, h.nores, h.params⟩

theorem emitNode_inv (pid : String) (args : List (String × ArgValue)) (base : FlatGraph)
    (cs : Counters)
    (hgs : GoodStem (stem pid))
    (hwf : WFids cs (keysG base))
    (hnd : (keysG base).Nodup)
    (hclosed : ∀ e ∈ base, ∀ r ∈ refsOfNode e.2, r ∈ keysG base)
    (hnores : ∀ e ∈ base, e.2.resultFlag = false)
    (hparams : ∀ e ∈ base, ∀ r ∈ paramRefsOfNode e.2, r = "data")
    (hargrefs : ∀ r ∈ refsOfArgs args, r ∈ keysG base)
    (hargparams : ∀ r ∈ paramRefsOfArgs args, r = "data") :
    PBInv (emitNode pid args base cs).2 (emitNode pid args base cs).1 ∧
      csLe cs (emitNode pid args base cs).2 := by
  have hfresh : (next_id cs pid).1 ∉ keysG base := by
    simpa [next_id] using fresh_id cs (keysG base) (stem pid) hwf hgs
  have hle : csLe cs (next_id cs pid).2 := csLe_next_id cs pid
  have hkeys : keysG (emitNode pid args base cs).1.nodes = keysG base ++ [(next_id cs pid).1] := by
    simp [emitNode, keysG]
  refine ⟨⟨?_, ?_, ?_, ?_, ?_, ?_⟩, hle⟩
  · rw [hkeys]
    exact WFids_append _ _ _ (WFids_mono cs _ _ hle hwf) (WFids_next cs pid hgs)
  · rw [hkeys, List.nodup_append]
    refine ⟨hnd, List.nodup_singleton _, ?_⟩
    intro a ha
    simp only [List.mem_singleton]
    intro heq
    subst heq
    exact hfresh ha
  · refine ⟨(next_id cs pid).1, rfl, ?_⟩
    rw [hkeys, List.mem_append]
    right
    simp
  · intro e he r hr
    rw [hkeys, List.mem_append]
    have hmem : e ∈ base ++ [((next_id cs pid).1, PGNode.mk pid none args false)] := he
    rcases List.mem_append.1 hmem with hm | hm
    · exact Or.inl (hclosed e hm r hr)
    · rw [List.mem_singleton] at hm
      subst hm
      simp only [refsOfNode_mk] at hr
      exact Or.inl (hargrefs r hr)
  · intro e he
    have hmem : e ∈ base ++ [((next_id cs pid).1, PGNode.mk pid none args false)] := he
    rcases List.mem_append.1 hmem with hm | hm
    · exact hnores e hm
    · rw [List.mem_singleton] at hm
      subst hm
      rfl
  · intro e he r hr
    have hmem : e ∈ base ++ [((next_id cs pid).1, PGNode.mk pid none args false)] := he
    rcases List.mem_append.1 hmem with hm | hm
    · exact hparams e hm r hr
    · rw [List.mem_singleton] at hm
      subst hm
      simp only [paramRefsOfNode_mk] at hr
      exact hargparams r hr

theorem binScalarR_inv (p : PB) (pid : String) (s : Int) (cs : Counters)
    (hgs : GoodStem (stem pid)) (hp : PBInv cs p) :
    PBInv (p.binScalarR pid s cs).2 (p.binScalarR pid s cs).1 ∧
      csLe cs (p.binScalarR pid s cs).2 := by
  obtain ⟨t, ht, htm⟩ := hp.tip
  apply emitNode_inv pid _ p.nodes cs hgs hp.wf hp.nd hp.closed hp.nores hp.params
  · intro r hr
    simp only [refsOfArgs, refsOfArg, ht, List.append_nil] at hr
    rw [List.mem_singleton] at hr
    subst hr
    exact htm
  · intro r hr
    simp [paramRefsOfArgs, paramRefsOfArg, ht] at hr

theorem binScalarL_inv (s : Int) (p : PB) (pid : String) (cs : Counters)
    (hgs : GoodStem (stem pid)) (hp : PBInv cs p) :
    PBInv (PB.binScalarL s p pid cs).2 (PB.binScalarL s p pid cs).1 ∧
      csLe cs (PB.binScalarL s p pid cs).2 := by
  obtain ⟨t, ht, htm⟩ := hp.tip
  apply emitNode_inv pid _ p.nodes cs hgs hp.wf hp.nd hp.closed hp.nores hp.params
  · intro r hr
    simp only [refsOfArgs, refsOfArg, ht, List.append_nil, List.nil_append] at hr
    rw [List.mem_singleton] at hr
    subst hr
    exact htm
  · intro r hr
    simp [paramRefsOfArgs, paramRefsOfArg, ht] at hr

theorem notOp_inv (p : PB) (cs : Counters) (hp : PBInv cs p) :
    PBInv (p.notOp cs).2 (p.notOp cs).1 ∧ csLe cs (p.notOp cs).2 := by
  obtain ⟨t, ht, htm⟩ := hp.tip
  apply emitNode_inv "not" _ p.nodes cs (by decide) hp.wf hp.nd hp.closed hp.nores hp.params
  · intro r hr
    simp only [refsOfArgs, refsOfArg, ht, List.append_nil] at hr
    rw [List.mem_singleton] at hr
    subst hr
    exact htm
  · intro r hr
    simp [paramRefsOfArgs, paramRefsOfArg, ht] at hr

theorem binBuilder_inv (p q : PB) (pid : String) (cs : Counters)
    (hgs : GoodStem (stem pid)) (hp : PBInv cs p) (hq : PBInv cs q) :
    PBInv (PB.binBuilder p q pid cs).2 (PB.binBuilder p q pid cs).1 ∧
      csLe cs (PB.binBuilder p q pid cs).2 := by
  obtain ⟨t, ht, htm⟩ := hp.tip
  obtain ⟨u, hu, hum⟩ := hq.tip
  apply emitNode_inv pid _ (mergeNodes p.nodes q.nodes) cs hgs
  · intro k hk
    rcases mergeNodes_keys_cases _ _ k hk with h | h
    · exact hp.wf k h
    · exact hq.wf k h
  · exact mergeNodes_nodup _ _ hp.nd hq.nd
  · intro e he r hr
    rcases mergeNodes_mem _ _ e he with hm | hm
    · exact mergeNodes_keys_left _ _ r (hp.closed e hm r hr)
    · exact mergeNodes_keys_right _ _ r (hq.closed e hm r hr)
  · intro e he
    rcases mergeNodes_mem _ _ e he with hm | hm
    · exact hp.nores e hm
    · exact hq.nores e hm
  · intro e he r hr
    rcases mergeNodes_mem _ _ e he with hm | hm
    · exact hp.params e hm r hr
    · exact hq.params e hm r hr
  · intro r hr
    simp only [refsOfArgs, refsOfArg, ht, hu, List.append_nil] at hr
    rcases List.mem_append.1 hr with h | h
    · rw [List.mem_singleton] at h
      subst h
      exact mergeNodes_keys_left _ _ r htm
    · rw [List.mem_singleton] at h
      subst h
      exact mergeNodes_keys_right _ _ r hum
  · intro r hr
    simp [paramRefsOfArgs, paramRefsOfArg, ht, hu] at hr

/-! ### The compiler invariant -/

theorem compile_inv (e : RExpr) : ∀ cs : Counters,
    PBInv (compile e cs).2 (compile e cs).1 ∧ csLe cs (compile e cs).2 := by
  induction e with
  | bandIdx i =>
    intro cs
    apply emitNode_inv "array_element" _ [] cs (by decide)
    · intro id hid
      cases hid
    · exact List.nodup_nil
    · intro e he
      cases he
    · intro e he
      cases he
    · intro e he
      cases he
    · intro r hr
      simp [refsOfArgs, refsOfArg] at hr
    · intro r hr
      simp only [paramRefsOfArgs, paramRefsOfArg, List.append_nil, List.nil_append] at hr
      rw [List.mem_singleton] at hr
      exact hr
  | addS e s ih =>
    intro cs
    obtain ⟨hinv, hle⟩ := ih cs
    have h2 := binScalarR_inv (compile e cs).1 "add" s (compile e cs).2 (by decide) hinv
    exact ⟨h2.1, csLe_trans _ _ _ hle h2.2⟩
  | sAdd s e ih =>
    intro cs
    obtain ⟨hinv, hle⟩ := ih cs
    have h2 := binScalarL_inv s (compile e cs).1 "add" (compile e cs).2 (by decide) hinv
    exact ⟨h2.1, csLe_trans _ _ _ hle h2.2⟩
  | subS e s ih =>
    intro cs
    obtain ⟨hinv, hle⟩ := ih cs
    have h2 := binScalarR_inv (compile e cs).1 "subtract" s (compile e cs).2 (by decide) hinv
    exact ⟨h2.1, csLe_trans _ _ _ hle h2.2⟩
  | sSub s e ih =>
    intro cs
    obtain ⟨hinv, hle⟩ := ih cs
    have h2 := binScalarL_inv s (compile e cs).1 "subtract" (compile e cs).2 (by decide) hinv
    exact ⟨h2.1, csLe_trans _ _ _ hle h2.2⟩
  | mulS e s ih =>
    intro cs
    obtain ⟨hinv, hle⟩ := ih cs
    have h2 := binScalarR_inv (compile e cs).1 "multiply" s (compile e cs).2 (by decide) hinv
    exact ⟨h2.1, csLe_trans _ _ _ hle h2.2⟩
  | sMul s e ih =>
    intro cs
    obtain ⟨hinv, hle⟩ := ih cs
    have h2 := binScalarL_inv s (compile e cs).1 "multiply" (compile e cs).2 (by decide) hinv
    exact ⟨h2.1, csLe_trans _ _ _ hle h2.2⟩
  | divS e s ih =>
    intro cs
    obtain ⟨hinv, hle⟩ := ih cs
    have h2 := binScalarR_inv (compile e cs).1 "divide" s (compile e cs).2 (by decide) hinv
    exact ⟨h2.1, csLe_trans _ _ _ hle h2.2⟩
  | sDiv s e ih =>
    intro cs
    obtain ⟨hinv, hle⟩ := ih cs
    have h2 := binScalarL_inv s (compile e cs).1 "divide" (compile e cs).2 (by decide) hinv
    exact ⟨h2.1, csLe_trans _ _ _ hle h2.2⟩
  | eqS e s ih =>
    intro cs
    obtain ⟨hinv, hle⟩ := ih cs
    have h2 := binScalarR_inv (compile e cs).1 "eq" s (compile e cs).2 (by decide) hinv
    exact ⟨h2.1, csLe_trans _ _ _ hle h2.2⟩
  | gtS e s ih =>
    intro cs
    obtain ⟨hinv, hle⟩ := ih cs
    have h2 := binScalarR_inv (compile e cs).1 "gt" s (compile e cs).2 (by decide) hinv
    exact ⟨h2.1, csLe_trans _ _ _ hle h2.2⟩
  | notE e ih =>
    intro cs
    obtain ⟨hinv, hle⟩ := ih cs
    have h2 := notOp_inv (compile e cs).1 (compile e cs).2 hinv
    exact ⟨h2.1, csLe_trans _ _ _ hle h2.2⟩
  | addB a b iha ihb =>
    intro cs
    obtain ⟨ha, hlea⟩ := iha cs
    obtain ⟨hb, hleb⟩ := ihb (compile a cs).2
    have ha' := PBInv_mono _ _ _ hleb ha
    have h2 := binBuilder_inv (compile a cs).1 (compile b (compile a cs).2).1 "add"
      (compile b (compile a cs).2).2 (by decide) ha' hb
    exact ⟨h2.1, csLe_trans _ _ _ hlea (csLe_trans _ _ _ hleb h2.2)⟩

/-! ### Finalization -/

theorem flat_graph_of_inv (cs : Counters) (p : PB) (h : PBInv cs p) :
    ∃ t, p.value = ArgValue.fromNode t ∧
      p.flat_graph = some (setResultG t p.nodes) ∧
      countResultsG (setResultG t p.nodes) = 1 ∧
      ClosedG (setResultG t p.nodes) ∧
      (∀ e ∈ setResultG t p.nodes, ∀ r ∈ paramRefsOfNode e.2, r = "data") := by
  obtain ⟨t, ht, htm⟩ := h.tip
  have hne : p.nodes.isEmpty = false := by
    cases hn : p.nodes
    · rw [hn] at htm
      simp [keysG] at htm
    · rfl
  refine ⟨t, ht, ?_, ?_, ?_, ?_⟩
  · simp [PB.flat_graph, ht, hne]
  · exact countResultsG_setResultG t p.nodes h.nd htm
  · exact ClosedG_setResultG t p.nodes h.closed
  · exact params_setResultG t p.nodes h.params

/-- Claim C3: every finalized flat graph has exactly one node carrying
`result = true`, and every reducer argument nests a process-graph wrapper
that is itself a complete flat graph with its own single result node, using
`from_argument` references for bound callback parameters instead of
`from_node` references. -/
theorem claim_C3 (collection : String) (e : RExpr) :
    ∃ g cb lcId rdId lcNode rdArgs,
      bandMathGraph collection e = some g ∧
      g = [(lcId, lcNode), (rdId, PGNode.mk "reduce_dimension" none rdArgs true)] ∧
      countResultsG g = 1 ∧
      ("reducer", ArgValue.callback cb) ∈ rdArgs ∧
      countResultsG cb = 1 ∧
      ClosedG cb ∧
      (∀ en ∈ cb, ∀ r ∈ paramRefsOfNode en.2, r = "data") := by
  obtain ⟨hinv, hle⟩ := compile_inv e (next_id [] "load_collection").2
  obtain ⟨t, ht, hfg, hcb1, hcbC, hcbP⟩ :=
    flat_graph_of_inv _ (compile e (next_id [] "load_collection").2).1 hinv
  have hne : (next_id [] "load_collection").1 ≠
      (next_id (compile e (next_id [] "load_collection").2).2 "reduce_dimension").1 := by
    intro h
    have h2 := id_inj (stem "load_collection") (stem "reduce_dimension") 1
      (getCount (compile e (next_id [] "load_collection").2).2 (stem "reduce_dimension") + 1)
      (by decide) (by decide) h
    exact absurd h2.1 (by decide)
  have hbe1 : ((next_id [] "load_collection").1 ==
      (next_id (compile e (next_id [] "load_collection").2).2 "reduce_dimension").1) = false := by
    cases hb : (next_id [] "load_collection").1 ==
        (next_id (compile e (next_id [] "load_collection").2).2 "reduce_dimension").1
    · rfl
    · exact absurd (eq_of_beq hb) hne
  refine ⟨_, setResultG t (compile e (next_id [] "load_collection").2).1.nodes,
    (next_id [] "load_collection").1,
    (next_id (compile e (next_id [] "load_collection").2).2 "reduce_dimension").1,
    PGNode.mk "load_collection" none (loadCollectionArgs collection) false,
    [("data", ArgValue.fromNode (next_id [] "load_collection").1),
     ("reducer", ArgValue.callback (setResultG t (compile e (next_id [] "load_collection").2).1.nodes)),
     ("dimension", ArgValue.str "spectral_bands")],
    ?_, rfl, ?_, ?_, hcb1, hcbC, hcbP⟩
  · simp only [bandMathGraph]
    rw [hfg]
    simp [setResultG, hbe1]
  · rfl
  · simp

/-! ### The claims -/

/-- Claim C1: chaining an arithmetic operator over more than two operands,
as in `3 + b + 5` on a builder referencing `arrayelement1`, compiles to two
sequential binary `add` nodes: `add1` without the result flag and `add2`
whose `x` is a NodeReference to `add1` and whose `y` is the remaining
literal, carrying `result = true`; never a single n-ary node. -/
theorem claim_C1 (a c : Int) :
    (compile (RExpr.addS (RExpr.sAdd a (RExpr.bandIdx 2)) c) []).1.flat_graph =
      some [("arrayelement1", PGNode.mk "array_element" none
              [("data", ArgValue.fromArgument "data"), ("index", ArgValue.int 2)] false),
            ("add1", PGNode.mk "add" none
              [("x", ArgValue.int a), ("y", ArgValue.fromNode "arrayelement1")] false),
            ("add2", PGNode.mk "add" none
              [("x", ArgValue.fromNode "add1"), ("y", ArgValue.int c)] true)] := rfl

/-- Claim C2: for every builder and plain scalar literal, `+`, `-` and `*`
with the scalar on the left (reflected operator) emit one node of the
corresponding process (`add`, `subtract`, `multiply`) with `x` bound to the
scalar literal and `y` bound to the builder's reference; with the scalar on
the right, `x` is the builder's reference and `y` the scalar. -/
theorem claim_C2 (p : PB) (s : Int) (cs : Counters) :
    (∃ id cs', PB.radd s p cs = (PB.mk (ArgValue.fromNode id)
      (p.nodes ++ [(id, PGNode.mk "add" none
        [("x", ArgValue.int s), ("y", p.value)] false)]), cs')) ∧
    (∃ id cs', PB.add p s cs = (PB.mk (ArgValue.fromNode id)
      (p.nodes ++ [(id, PGNode.mk "add" none
        [("x", p.value), ("y", ArgValue.int s)] false)]), cs')) ∧
    (∃ id cs', PB.rsub s p cs = (PB.mk (ArgValue.fromNode id)
      (p.nodes ++ [(id, PGNode.mk "subtract" none
        [("x", ArgValue.int s), ("y", p.value)] false)]), cs')) ∧
    (∃ id cs', PB.sub p s cs = (PB.mk (ArgValue.fromNode id)
      (p.nodes ++ [(id, PGNode.mk "subtract" none
        [("x", p.value), ("y", ArgValue.int s)] false)]), cs')) ∧
    (∃ id cs', PB.rmul s p cs = (PB.mk (ArgValue.fromNode id)
      (p.nodes ++ [(id, PGNode.mk "multiply" none
        [("x", ArgValue.int s), ("y", p.value)] false)]), cs')) ∧
    (∃ id cs', PB.mul p s cs = (PB.mk (ArgValue.fromNode id)
      (p.nodes ++ [(id, PGNode.mk "multiply" none
        [("x", p.value), ("y", ArgValue.int s)] false)]), cs')) :=
  ⟨⟨_, _, rfl⟩, ⟨_, _, rfl⟩, ⟨_, _, rfl⟩, ⟨_, _, rfl⟩, ⟨_, _, rfl⟩, ⟨_, _, rfl⟩⟩

/-- Claim C4 (facade behaviour required by the spec): combining two bands of
different declared source collections with any arithmetic operator rejects
with the cross-collection domain error and produces no graph. -/
theorem claim_C4 (pid : String) (b₁ b₂ : Band) (cs : Counters)
    (h : b₁.collection ≠ b₂.collection) :
    Band.combine pid b₁ b₂ cs = Except.error BandMathException.differentCollections := by
  unfold Band.combine
  rw [if_neg h]

theorem claim_C4_witness :
    "S2" ≠ "SENTINEL2_RADIOMETRY_10M" ∧
      Band.combine "add"
        (Band.mk "S2" (PB.mk (ArgValue.fromNode "reducedimension1") []))
        (Band.mk "SENTINEL2_RADIOMETRY_10M" (PB.mk (ArgValue.fromNode "reducedimension2") [])) []
        = Except.error BandMathException.differentCollections :=
  ⟨by decide,
    claim_C4 "add"
      (Band.mk "S2" (PB.mk (ArgValue.fromNode "reducedimension1") []))
      (Band.mk "SENTINEL2_RADIOMETRY_10M" (PB.mk (ArgValue.fromNode "reducedimension2") []))
      [] (by decide)⟩

theorem allocSeq_eq_specIdsStemAux (ps : List String) (cs : Counters) (hist : List String)
    (hcs : ∀ st, getCount cs st = hist.count st) :
    allocSeq ps cs = specIdsStemAux hist ps := by
  induction ps generalizing cs hist with
  | nil => rfl
  | cons p ps ih =>
    simp only [allocSeq, specIdsStemAux, next_id, hcs (stem p)]
    refine congrArg₂ List.cons rfl ?_
    refine ih _ _ ?_
    intro st
    rw [getCount_setCount]
    by_cases hst : stem p = st
    · subst hst
      simp [List.count_append]
    · rw [if_neg hst, hcs st, List.count_append]
      have hone : [stem p].count st = 0 := by
        have hbe : (st == stem p) = false := by
          cases hb : st == stem p
          · rfl
          · exact absurd (eq_of_beq hb).symm hst
        simp [List.count_cons, hbe]
        exact hst
      omega

/-- Claim C5 counterexample: the claim's literal id format and unconditional
distinctness both fail.  Allocating for process id `array_element` yields the
id `arrayelement1` (as the repository test data shows), not the claim's
`"array_element" ++ "1"` (which `specIdAt` renders); and in a fresh session
eleven allocations for `a` followed by one for `a1` produce the id `a11`
twice, so the allocated ids are not pairwise distinct. -/
theorem claim_C5_counterexample :
    (allocSeq ["array_element"] [] = ["arrayelement1"] ∧
      specIdAt [] "array_element" = "array_element1" ∧
      ("arrayelement1" : String) ≠ "array_element1") ∧
    ¬ (allocSeq (List.replicate 11 "a" ++ ["a1"]) []).Nodup := by
  refine ⟨⟨rfl, rfl, by decide⟩, by decide⟩

/-- Claim C5 (amended): within a session every allocated node id is the
process id's stem (the process id with underscores removed) followed by a
per-stem counter that starts at 1 and increases monotonically (formalized by
`specIdsStemAux` over the allocation history); whenever no allocated process
id's stem ends in a decimal digit, the ids of a fresh session are pairwise
distinct; and the explicit `reset` operation starts a fresh sequence that
reproduces the same ids as a fresh session. -/
theorem claim_C5 (ps : List String) (cs : Counters) (hist : List String)
    (hcs : ∀ st, getCount cs st = hist.count st) :
    allocSeq ps cs = specIdsStemAux hist ps ∧
    ((∀ p ∈ ps, GoodStem (stem p)) → (allocSeq ps (reset cs)).Nodup) ∧
    allocSeq ps (reset cs) = specIdsStemAux [] ps := by
  refine ⟨allocSeq_eq_specIdsStemAux ps cs hist hcs, ?_, ?_⟩
  · intro hgood
    have h := allocSeq_nodup_aux ps [] [] hgood
      (fun id hid => absurd hid (List.not_mem_nil id)) List.nodup_nil
    simpa [reset] using h
  · exact allocSeq_eq_specIdsStemAux ps [] [] (fun st => rfl)

theorem claim_C5_witness :
    allocSeq ["array_element", "add", "add"] [] = ["arrayelement1", "add1", "add2"] ∧
    (allocSeq ["array_element", "add", "add"] (reset [])).Nodup := by
  have h := claim_C5 ["array_element", "add", "add"] [] [] (fun st => rfl)
  refine ⟨?_, h.2.1 (by decide)⟩
  rw [h.1]
  rfl

/-- Claim C6: unary `~` and the comparisons `==` and `>` each emit exactly
one node of the corresponding process (`not`, `eq`, `gt`) whose `x` argument
is the operand's reference, with `y` the scalar for the binary comparisons. -/
theorem claim_C6 (p : PB) (s : Int) (cs : Counters) :
    (∃ id cs', PB.notOp p cs = (PB.mk (ArgValue.fromNode id)
      (p.nodes ++ [(id, PGNode.mk "not" none [("x", p.value)] false)]), cs')) ∧
    (∃ id cs', PB.eqOp p s cs = (PB.mk (ArgValue.fromNode id)
      (p.nodes ++ [(id, PGNode.mk "eq" none
        [("x", p.value), ("y", ArgValue.int s)] false)]), cs')) ∧
    (∃ id cs', PB.gtOp p s cs = (PB.mk (ArgValue.fromNode id)
      (p.nodes ++ [(id, PGNode.mk "gt" none
        [("x", p.value), ("y", ArgValue.int s)] false)]), cs')) :=
  ⟨⟨_, _, rfl⟩, ⟨_, _, rfl⟩, ⟨_, _, rfl⟩⟩

/-- Claim C7: building a single process node from a process id and named
literal arguments and materializing the flat graph yields exactly the
one-entry mapping whose key is the process id followed by `1`, whose node
carries the process id, the arguments and `result = true`, and which carries
the namespace exactly when one was supplied. -/
theorem claim_C7 (pid : String) (ns : Option String) (args : List (String × ArgValue))
    (h : pid.data.contains '_' = false) :
    (from_process pid ns args []).1.flat_graph =
      some [((pid ++ "1"), PGNode.mk pid ns args true)] := by
  have hstem : stem pid = pid := stem_eq_self pid h
  have hid : (next_id [] pid).1 = pid ++ "1" := by
    show stem pid ++ natToStr (getCount [] (stem pid) + 1) = pid ++ "1"
    rw [hstem]
    rfl
  show PB.flat_graph (PB.mk (ArgValue.fromNode (next_id [] pid).1)
    [((next_id [] pid).1, PGNode.mk pid ns args false)]) = _
  rw [hid]
  simp [PB.flat_graph, setResultG]

theorem claim_C7_witness :
    (from_process "foo" none [("color", ArgValue.str "blue")] []).1.flat_graph =
      some [("foo1", PGNode.mk "foo" none [("color", ArgValue.str "blue")] true)] ∧
    (from_process "foo" (some "bar") [("color", ArgValue.str "blue")] []).1.flat_graph =
      some [("foo1", PGNode.mk "foo" (some "bar") [("color", ArgValue.str "blue")] true)] :=
  ⟨claim_C7 "foo" none [("color", ArgValue.str "blue")] (by decide),
   claim_C7 "foo" (some "bar") [("color", ArgValue.str "blue")] (by decide)⟩

/-- Claim C8: `get_parameter_names` returns the declared
positional-or-keyword parameter names in declaration order, excluding the
variadic positional and variadic keyword catch-alls; in particular for
`def add_stuff(foo, bar, *args, **kwargs)` it returns `["foo", "bar"]`. -/
theorem claim_C8 :
    (∀ ps : List FnParam,
      get_parameter_names ps = (ps.filter FnParam.isNamed).map FnParam.name) ∧
    get_parameter_names add_stuff_params = ["foo", "bar"] := by
  constructor
  · intro ps
    induction ps with
    | nil => rfl
    | cons p ps ih =>
      obtain ⟨nm, k⟩ := p
      cases k <;> simp [get_parameter_names, FnParam.isNamed, List.filter, ih]
  · rfl
